import Mathlib

/-!
Shallow embedding of the pyschema module (src/schema.py): a schema
validation and coercion engine.  Python values are modelled by the
inductive type Value, Python type references by PyType, exceptions by
Err, and the SchemaDescriptor class hierarchy by the inductive type
Descriptor.  Raw schema literals (which Map stores un-dispatched and
dispatches on every coercion call) are modelled by SchemaLit.
-/

namespace PySchema

/-- Python runtime values, restricted to the shapes the module
manipulates.  Floats carry an opaque integer tag: the module never
computes with a float, it only type-checks one.  The EMPTY sentinel
(an instance of the Empty class, line 18 of schema.py) is the
constructor empty; Python dicts are association lists in insertion
order. -/
inductive Value : Type where
  | int (n : Int)
  | str (s : String)
  | float (tag : Int)
  | none
  | list (xs : List Value)
  | dict (kvs : List (String × Value))
  | empty
deriving Repr

/-- Python type references that can appear as Instance schemas. -/
inductive PyType : Type where
  | int | str | float | noneType | list | dict
deriving Repr, DecidableEq

/-- The exception kinds raised by the module.  ValueError is the
data-validation failure; TypeError is the construction error raised
by dispatch and the constructors; KeyError is raised by set.remove
when the element is missing; AttributeError is raised by attribute
lookups that fail (tuple.append, the misspelled class attribute in
OptionalString.__init__). -/
inductive Err : Type where
  | valueError
  | typeError
  | keyError
  | attributeError
deriving Repr, DecidableEq

/-- Result of isinstance(v, t) for the modelled values and types.
Subclass checks do not arise for these leaf types. -/
def isinst (v : Value) (t : PyType) : Bool :=
  match v, t with
  | .int _, .int => true
  | .str _, .str => true
  | .float _, .float => true
  | .none, .noneType => true
  | .list _, .list => true
  | .dict _, .dict => true
  | _, _ => false

/-- Python truthiness of a modelled value.  Zero, the empty string,
None and empty containers are falsy; the EMPTY sentinel is a plain
object instance and hence truthy. -/
def truthy : Value → Bool
  | .int n => n != 0
  | .str s => s != ""
  | .float tag => tag != 0
  | .none => false
  | .list xs => !xs.isEmpty
  | .dict kvs => !kvs.isEmpty
  | .empty => true

mutual
/-- The SchemaDescriptor class hierarchy of schema.py as a tagged
union.  Constructor per concrete class: inst is Instance, regEx is
RegEx (the external regex engine re.search, with its pattern and
flags, is abstracted into the search predicate), coerceFn is Coerce,
check is Check (truthiness of the stored callable's result is taken
by coerce), listOf is List (child already dispatched by
List.__init__), mapOf is Map (children kept as raw literals,
dispatched on each coercion call, per Map.__init__/Map.coerce),
optional is Optional, optionalString is OptionalString, and is And,
or is Or.  And/Or record whether their child sequence is a Python
tuple (the *schemas argument of __init__ always is) or a list, since
only lists have an append method. -/
inductive Descriptor : Type where
  | inst (t : PyType)
  | regEx (search : String → Bool)
  | coerceFn (f : Value → Except Err Value)
  | check (f : Value → Value)
  | listOf (child : Descriptor)
  | mapOf (kvs : List (String × SchemaLit))
  | optional (child : Descriptor) (default : Value)
  | optionalString (child : Descriptor) (default : Value)
  | and (isTuple : Bool) (items : List Descriptor)
  | or (isTuple : Bool) (items : List Descriptor)

/-- Raw schema literals handed to dispatch (line 20 of schema.py): an
already-built descriptor, a list literal, a dict literal, a type
reference, or anything else (invalid). -/
inductive SchemaLit : Type where
  | desc (d : Descriptor)
  | listLit (xs : List SchemaLit)
  | dictLit (kvs : List (String × SchemaLit))
  | typeLit (t : PyType)
  | invalid
end

/-- Python data.get(key, EMPTY) on an association-list dict:
the first binding of the key, or the EMPTY sentinel. -/
def lookupD : List (String × Value) → String → Value
  | [], _ => Value.empty
  | (k0, v0) :: rest, k => if k0 = k then v0 else lookupD rest k

/-- Python set.remove on the set of input keys: raises KeyError when
the element is absent, otherwise removes it. -/
def setRemove (keys : List String) (k : String) : Except Err (List String) :=
  if k ∈ keys then .ok (keys.erase k) else .error .keyError

/-- Python dict assignment new[key] = v: overwrite an existing
binding, else append a new one. -/
def dictInsert (m : List (String × Value)) (k : String) (v : Value) :
    List (String × Value) :=
  match m with
  | [] => [(k, v)]
  | (k', v') :: rest =>
      if k' = k then (k, v) :: rest else (k', v') :: dictInsert rest k v

mutual
/-- Size of a descriptor, used as the termination measure of coerce. -/
def dsize : Descriptor → Nat
  | .inst _ => 1
  | .regEx _ => 1
  | .coerceFn _ => 1
  | .check _ => 1
  | .listOf c => dsize c + 1
  | .mapOf kvs => kvsSize kvs + 1
  | .optional c _ => dsize c + 1
  | .optionalString c _ => dsize c + 1
  | .and _ ds => sumD ds + 2
  | .or _ ds => sumD ds + 2

/-- Sum of descriptor sizes. -/
def sumD : List Descriptor → Nat
  | [] => 0
  | d :: rest => dsize d + sumD rest

/-- Size of a schema literal; strictly larger than the size of the
descriptor dispatch builds from it. -/
def lsize : SchemaLit → Nat
  | .desc d => dsize d + 1
  | .listLit xs => litsSize xs + 3
  | .dictLit kvs => kvsSize kvs + 2
  | .typeLit _ => 2
  | .invalid => 1

/-- Sum of literal sizes. -/
def litsSize : List SchemaLit → Nat
  | [] => 0
  | x :: rest => lsize x + litsSize rest

/-- Sum of literal sizes over the values of a keyed schema. -/
def kvsSize : List (String × SchemaLit) → Nat
  | [] => 0
  | (_, lit) :: rest => lsize lit + kvsSize rest
end

/-- Dispatch (line 20 of schema.py) with a size certificate on its
result, used to justify termination of coerce.  A descriptor is
returned unchanged; a list literal goes through List.__init__, which
raises TypeError unless it has exactly one element and eagerly
dispatches that element; a dict literal goes through Map.__init__,
which stores the literal children raw; a type reference becomes an
Instance; anything else raises TypeError. -/
def dispatchB : (lit : SchemaLit) → Except Err { d : Descriptor // dsize d < lsize lit }
  | .desc d => .ok ⟨d, by simp [lsize]⟩
  | .listLit [x] =>
      match dispatchB x with
      | .error e => .error e
      | .ok ⟨d, h⟩ => .ok ⟨.listOf d, by simp [dsize, lsize, litsSize] at *; omega⟩
  | .listLit [] => .error .typeError
  | .listLit (_ :: _ :: _) => .error .typeError
  | .dictLit kvs => .ok ⟨.mapOf kvs, by simp [dsize, lsize]⟩
  | .typeLit t => .ok ⟨.inst t, by simp [dsize, lsize]⟩
  | .invalid => .error .typeError
termination_by lit => lsize lit
decreasing_by simp only [lsize, litsSize]; omega

/-- Dispatch proper: the size certificate erased. -/
def dispatch (lit : SchemaLit) : Except Err Descriptor :=
  match dispatchB lit with
  | .ok d => .ok d.val
  | .error e => .error e

mutual
/-- The coerce method of each descriptor class (schema.py):
Instance.coerce (line 137) returns the data unchanged iff it is an
instance of the stored type, else raises ValueError; RegEx.coerce
(line 80) raises ValueError when re.search raises TypeError on a
non-string, returns the data when the pattern matches, else raises
ValueError; Coerce.coerce (line 149) just applies the stored
callable; Check.coerce (line 158) returns the data when the stored
callable's result is truthy, else raises ValueError; List.coerce
(line 179) raises ValueError on a non-list and otherwise coerces
every element through the single child in order; Map.coerce (line
197) raises ValueError on a non-dict, walks the declared keys
substituting EMPTY for absent input values, dispatches each child
literal per call, removes each declared key from the input key set,
and raises ValueError when keys are left over; Optional.coerce (line
226) returns the stored default on EMPTY, else delegates to the
child; OptionalString.coerce (line 242) also treats the empty string
as absent; And.coerce (line 108) pipes the data through every child;
Or.coerce (line 122) returns the first child success, swallows
ValueError, and falls off the loop end returning None when every
child fails. -/
def coerce : Descriptor → Value → Except Err Value
  | .inst t, v => if isinst v t then .ok v else .error .valueError
  | .regEx f, v =>
      match v with
      | .str s => if f s then .ok (.str s) else .error .valueError
      | _ => .error .valueError
  | .coerceFn f, v => f v
  | .check f, v => if truthy (f v) then .ok v else .error .valueError
  | .listOf c, v =>
      match v with
      | .list items =>
          match listLoop c items with
          | .ok new => .ok (.list new)
          | .error e => .error e
      | _ => .error .valueError
  | .mapOf kvs, v =>
      match v with
      | .dict entries =>
          match mapLoop kvs entries (entries.map Prod.fst) [] with
          | .ok (new, leftover) =>
              if leftover.isEmpty then .ok (.dict new) else .error .valueError
          | .error e => .error e
      | _ => .error .valueError
  | .optional _ default, .empty => .ok default
  | .optional c _, v => coerce c v
  | .optionalString _ default, .str "" => .ok default
  | .optionalString _ default, .empty => .ok default
  | .optionalString c _, v => coerce c v
  | .and _ ds, v => andLoop ds v
  | .or _ ds, v => orLoop ds v
termination_by d _ => (dsize d, 0)
decreasing_by
  all_goals simp only [dsize, kvsSize, sumD]
  all_goals apply Prod.Lex.left
  all_goals omega

/-- The element loop of List.coerce: new.append(self.schema.coerce(item))
for each item, first failure aborting the whole list. -/
def listLoop (c : Descriptor) : List Value → Except Err (List Value)
  | [] => .ok []
  | item :: rest =>
      match coerce c item with
      | .error e => .error e
      | .ok x =>
          match listLoop c rest with
          | .error e => .error e
          | .ok xs => .ok (x :: xs)
termination_by items => (dsize c, items.length + 1)
decreasing_by
  all_goals apply Prod.Lex.right
  all_goals try simp only [List.length_cons]
  all_goals omega

/-- The declared-key loop of Map.coerce: look the key up with EMPTY
as fallback, dispatch the child literal, coerce, then remove the
key from the input key set (set.remove: KeyError when absent).
Returns the accumulated output dict and the remaining input keys. -/
def mapLoop : List (String × PySchema.SchemaLit) → List (String × Value) →
    List String → List (String × Value) →
    Except Err (List (String × Value) × List String)
  | [], _, keys, acc => .ok (acc, keys)
  | (k, lit) :: rest, entries, keys, acc =>
      match dispatchB lit with
      | .error e => .error e
      | .ok d =>
          match coerce d.val (lookupD entries k) with
          | .error e => .error e
          | .ok cv =>
              match setRemove keys k with
              | .error e => .error e
              | .ok keys2 => mapLoop rest entries keys2 (dictInsert acc k cv)
termination_by kvs _ _ _ => (kvsSize kvs, 0)
decreasing_by
  · apply Prod.Lex.left
    simp only [kvsSize]
    have h1 : dsize d.val < lsize lit := d.property
    omega
  · apply Prod.Lex.left
    simp only [kvsSize]
    have h2 : 0 < lsize lit := by cases lit <;> simp only [lsize] <;> omega
    omega

/-- The pipeline loop of And.coerce: data = schema.coerce(data). -/
def andLoop : List Descriptor → Value → Except Err Value
  | [], v => .ok v
  | d :: rest, v =>
      match coerce d v with
      | .error e => .error e
      | .ok v2 => andLoop rest v2
termination_by ds _ => (sumD ds + 1, 0)
decreasing_by
  all_goals apply Prod.Lex.left
  all_goals have hp : 0 < dsize d := by cases d <;> simp only [dsize] <;> omega
  all_goals simp only [sumD]
  all_goals omega

/-- The alternation loop of Or.coerce: each child sees the original
data; the first success returns; ValueError moves to the next child;
any other exception propagates; an exhausted loop falls through and
the method returns None. -/
def orLoop : List Descriptor → Value → Except Err Value
  | [], _ => .ok Value.none
  | d :: rest, v =>
      match coerce d v with
      | .ok r => .ok r
      | .error .valueError => orLoop rest v
      | .error e => .error e
termination_by ds _ => (sumD ds + 1, 0)
decreasing_by
  all_goals apply Prod.Lex.left
  all_goals have hp : 0 < dsize d := by cases d <;> simp only [dsize] <;> omega
  all_goals simp only [sumD]
  all_goals omega
end

/-- SchemaDescriptor.validate (line 52 of schema.py): call coerce,
turn a ValueError into False, a normal return into True, and let any
other exception propagate uncaught. -/
def validate (d : Descriptor) (v : Value) : Except Err Bool :=
  match coerce d v with
  | .ok _ => .ok true
  | .error .valueError => .ok false
  | .error e => .error e

/-- SchemaDescriptor instance-check hook (line 71 of schema.py):
return self.validate(instance). -/
def instanceCheck (d : Descriptor) (v : Value) : Except Err Bool :=
  validate d v

/-- And.__init__ (line 101 of schema.py): stores the *schemas
argument, which is always a tuple. -/
def mkAnd (ds : List Descriptor) : Descriptor := .and true ds

/-- Or.__init__ (line 115 of schema.py): stores the *schemas
argument, which is always a tuple. -/
def mkOr (ds : List Descriptor) : Descriptor := .or true ds

/-- Appending to the stored child sequence of an And/Or node: a
Python list has an append method, the tuple built by *args does not,
so the attribute lookup on a tuple raises AttributeError. -/
def seqAppend (isTuple : Bool) (items : List Descriptor) (d : Descriptor) :
    Except Err (List Descriptor) :=
  if isTuple then .error .attributeError else .ok (items ++ [d])

/-- The & operator on descriptors: And.__and__ (line 104 of
schema.py) calls self.schemas.append(other) and returns self; on any
other descriptor SchemaDescriptor.__and__ (line 65) builds a fresh
And over the two operands. -/
def andOp : Descriptor → Descriptor → Except Err Descriptor
  | .and isTup items, other =>
      match seqAppend isTup items other with
      | .ok items2 => .ok (.and isTup items2)
      | .error e => .error e
  | d, other => .ok (mkAnd [d, other])

/-- The | operator on descriptors: Or.__or__ (line 118 of schema.py)
calls self.schemas.append(other) and returns self; on any other
descriptor SchemaDescriptor.__or__ (line 68) builds a fresh Or. -/
def orOp : Descriptor → Descriptor → Except Err Descriptor
  | .or isTup items, other =>
      match seqAppend isTup items other with
      | .ok items2 => .ok (.or isTup items2)
      | .error e => .error e
  | d, other => .ok (mkOr [d, other])

/-- Optional.__init__ (line 219 of schema.py) for a type-reference
schema: the guard is Python truthiness of the default (a falsy
default skips the isinstance check entirely), the failure is a
ValueError, and the schema is dispatched into the child
descriptor. -/
def mkOptional (t : PyType) (default : Value) : Except Err Descriptor :=
  if truthy default && !(isinst default t) then .error .valueError
  else .ok (.optional (.inst t) default)

/-- OptionalString.__init__ (line 235 of schema.py): a truthy
non-string default raises ValueError; every path that survives that
guard then evaluates the expression spelled default.__class.__ in
the source, whose first attribute lookup (the name mangles to
_OptionalString__class; the intended spelling was the two-trailing-
underscore attribute holding the value's class) does not exist on
any object, so construction always raises AttributeError. -/
def mkOptionalString (default : Value) : Except Err Descriptor :=
  if truthy default && !(isinst default .str) then .error .valueError
  else .error .attributeError

/-- A schema literal whose top level is not an Optional or
OptionalString descriptor. -/
def nonOptLit : SchemaLit → Bool
  | .desc (.optional _ _) => false
  | .desc (.optionalString _ _) => false
  | _ => true

mutual
/-- The pure, non-converting descriptors of the round-trip claim:
Instance, RegEx and Check leaves, and List/Map nodes built from such
descriptors.  Keyed schemas carry the no-duplicate-keys property a
Python dict literal guarantees. -/
inductive PureDesc : Descriptor → Prop where
  | inst : ∀ t, PureDesc (.inst t)
  | regEx : ∀ f, PureDesc (.regEx f)
  | check : ∀ f, PureDesc (.check f)
  | listOf : ∀ c, PureDesc c → PureDesc (.listOf c)
  | mapOf : ∀ kvs, (kvs.map Prod.fst).Nodup →
      (∀ kl ∈ kvs, PureLit (Prod.snd kl)) → PureDesc (.mapOf kvs)

/-- Schema literals that dispatch to pure descriptors. -/
inductive PureLit : SchemaLit → Prop where
  | desc : ∀ d, PureDesc d → PureLit (.desc d)
  | typeLit : ∀ t, PureLit (.typeLit t)
  | listLit : ∀ xs, (∀ x ∈ xs, PureLit x) → PureLit (.listLit xs)
  | dictLit : ∀ kvs, (kvs.map Prod.fst).Nodup →
      (∀ kl ∈ kvs, PureLit (Prod.snd kl)) → PureLit (.dictLit kvs)
end

/-- Relation between a declared key of a Map schema and the binding
the coercion loop produces for it on the input dict entries. -/
def mapR (entries : List (String × Value))
    (kl : String × SchemaLit) (p : String × Value) : Prop :=
  p.1 = kl.1 ∧ ∃ d, dispatch kl.2 = .ok d ∧
    coerce d (lookupD entries kl.1) = .ok p.2

/-- The running example of the spec: Or(Instance(int), Instance(str)). -/
def orIntStr : Descriptor := mkOr [.inst .int, .inst .str]

/-- Claim C1: on Or(Instance(int), Instance(str)), coerce(5) returns
5 and coerce("x") returns "x" as claimed, but in the all-fail case
coerce(3.14) the loop body of Or.coerce swallows every child's
ValueError and the method falls off the end of the loop, returning
None instead of raising a validation failure.  The code therefore
violates the claim that an Or whose children all fail raises. -/
theorem c1_or_all_fail_returns_none :
    coerce orIntStr (.int 5) = .ok (.int 5) ∧
    coerce orIntStr (.str "x") = .ok (.str "x") ∧
    coerce orIntStr (.float 314) = .ok Value.none := by
  refine ⟨?_, ?_, ?_⟩ <;> simp [orIntStr, mkOr, coerce, orLoop, isinst]

/-- Claim C2: for every descriptor and every input, validate returns
True exactly when coerce succeeds, returns False exactly when coerce
raises the data-validation failure ValueError, and re-raises exactly
the non-ValueError exceptions (the construction-error category), so
construction-time errors are never converted to a boolean. -/
theorem c2_validate_iff_coerce (d : Descriptor) (v : Value) :
    (validate d v = .ok true ↔ ∃ y, coerce d v = .ok y) ∧
    (validate d v = .ok false ↔ coerce d v = .error .valueError) ∧
    (∀ e, validate d v = .error e ↔ (coerce d v = .error e ∧ e ≠ .valueError)) := by
  cases h : coerce d v with
  | ok y => simp [validate, h]
  | error e => cases e <;> simp [validate, h]

/-- Witness for claim C2 on the Or fall-through: coerce returns None
without raising there, so validate reports True. -/
theorem c2_witness : validate orIntStr (.float 314) = .ok true :=
  (c2_validate_iff_coerce orIntStr (.float 314)).1.mpr
    ⟨Value.none, by simp [orIntStr, mkOr, coerce, orLoop, isinst]⟩

/-- Claim C3: a Map schema marking key "a" optional, applied to an
input that simply lacks "a": the Optional child itself happily turns
the substituted EMPTY sentinel into its default, but Map.coerce then
executes keys.remove("a") on the input key set, which does not
contain "a", so set.remove raises KeyError and the whole coercion
fails instead of succeeding with the default.  The code violates the
claim. -/
theorem c3_map_optional_absent_key_raises :
    mkOptional .int (.int 1) = .ok (.optional (.inst .int) (.int 1)) ∧
    coerce (.optional (.inst .int) (.int 1)) Value.empty = .ok (.int 1) ∧
    coerce (.mapOf [("a", .desc (.optional (.inst .int) (.int 1)))]) (.dict [])
      = .error .keyError := by
  refine ⟨?_, ?_, ?_⟩
  · simp [mkOptional, truthy, isinst]
  · simp [coerce]
  · simp [coerce, mapLoop, dispatchB, lookupD, setRemove]

/-- Claim C4: both And.__init__ and Or.__init__ store their *schemas
argument, a tuple, in self.schemas; the append operators then call
self.schemas.append(other), and tuples have no append method, so
every append on a constructed And or Or raises AttributeError
instead of mutating the node and returning it.  The code violates
the claim. -/
theorem c4_append_raises_attribute_error (ds : List Descriptor) (other : Descriptor) :
    andOp (mkAnd ds) other = .error .attributeError ∧
    orOp (mkOr ds) other = .error .attributeError := by
  constructor <;> simp [andOp, orOp, mkAnd, mkOr, seqAppend]

/-- Claim C5: OptionalString("def") does not construct at all.  The
default passes the string guard, but the next line evaluates the
misspelled attribute chain default.__class.__ and its first lookup
raises AttributeError, so the descriptor whose coerce the claim
describes can never be obtained.  The code violates the claim. -/
theorem c5_optionalstring_construction_raises :
    mkOptionalString (.str "def") = .error .attributeError := by
  simp [mkOptionalString, truthy, isinst]

/-- Claim C7, counterexample: 0 is a non-absent default (it is not
None) and is not an instance of str, yet Optional.__init__ guards
the isinstance check with the Python truthiness of the default, and
0 is falsy, so Optional(str, default=0) constructs successfully
instead of failing as the claim requires. -/
theorem c7_counterexample :
    (Value.int 0) ≠ Value.none ∧ isinst (.int 0) .str = false ∧
    mkOptional .str (.int 0) = .ok (.optional (.inst .str) (.int 0)) := by
  refine ⟨by simp, by simp [isinst], by simp [mkOptional, truthy, isinst]⟩

/-- Claim C7, amended: constructing OptionalOf(T, default=v) raises
ValueError exactly when v is truthy and not an instance of T, and
succeeds exactly when v is falsy or an instance of T; hence every
successfully constructed OptionalOf with a truthy default has a
default satisfying the wrapped type, checked once at construction,
and coerce never rechecks the default (on the EMPTY sentinel it
returns the stored default unconditionally). -/
theorem c7_truthy_default_checked_at_construction (t : PyType) (v : Value) :
    (mkOptional t v = .error .valueError ↔ (truthy v = true ∧ isinst v t = false)) ∧
    (mkOptional t v = .ok (.optional (.inst t) v) ↔
      (truthy v = false ∨ isinst v t = true)) ∧
    (∀ c dv, coerce (.optional c dv) Value.empty = .ok dv) := by
  refine ⟨?_, ?_, fun c dv => by simp [coerce]⟩ <;>
    rcases htv : truthy v <;> rcases hit : isinst v t <;>
      simp [mkOptional, htv, hit]

/-- Witness for the amended claim C7: a truthy non-string default
for a str-typed OptionalOf is rejected at construction. -/
theorem c7_witness : mkOptional .str (.int 5) = .error .valueError :=
  (c7_truthy_default_checked_at_construction .str (.int 5)).1.mpr
    ⟨by simp [truthy], by simp [isinst]⟩

/-- Claim C10: the instance-check hook on a descriptor is literally
its validate method, so membership testing a value against a
descriptor is validating it; in particular whenever coerce returns
normally (including the Or fall-through that returns None), the hook
reports True. -/
theorem c10_instancecheck_is_validate (d : Descriptor) (v : Value) :
    instanceCheck d v = validate d v ∧
    (∀ y, coerce d v = .ok y → instanceCheck d v = .ok true) := by
  refine ⟨rfl, fun y h => ?_⟩
  simp [instanceCheck, validate, h]

/-- Witness for claim C10 at Instance(int) and the value 0. -/
theorem c10_witness : instanceCheck (.inst .int) (.int 0) = .ok true :=
  (c10_instancecheck_is_validate (.inst .int) (.int 0)).2 (.int 0)
    (by simp [coerce, isinst])

/-- Dispatch succeeding is dispatchB succeeding, certificate included. -/
theorem dispatch_ok_elim {lit : SchemaLit} {d : Descriptor}
    (h : dispatch lit = .ok d) :
    ∃ hlt : dsize d < lsize lit, dispatchB lit = .ok ⟨d, hlt⟩ := by
  unfold dispatch at h
  cases hB : dispatchB lit with
  | ok dd =>
      obtain ⟨dv, dp⟩ := dd
      rw [hB] at h
      simp only [Except.ok.injEq] at h
      subst h
      exact ⟨dp, rfl⟩
  | error e => rw [hB] at h; simp at h

/-- Erasing the certificate of a successful dispatchB gives dispatch. -/
theorem dispatchB_ok_dispatch {lit : SchemaLit}
    {dd : { d : Descriptor // dsize d < lsize lit }}
    (hB : dispatchB lit = .ok dd) : dispatch lit = .ok dd.val := by
  unfold dispatch
  rw [hB]

/-- A failing dispatchB is a failing dispatch. -/
theorem dispatchB_err_dispatch {lit : SchemaLit} {e : Err}
    (hB : dispatchB lit = .error e) : dispatch lit = .error e := by
  unfold dispatch
  rw [hB]

/-- Looking a key up in an association list with distinct keys finds
the binding it contains. -/
theorem lookupD_mem : ∀ (ps : List (String × Value)) (k : String) (v : Value),
    (ps.map Prod.fst).Nodup → (k, v) ∈ ps → lookupD ps k = v := by
  intro ps
  induction ps with
  | nil => intro k v _ hm; cases hm
  | cons p rest ih =>
      intro k v hnd hm
      obtain ⟨k0, v0⟩ := p
      simp only [List.map_cons, List.nodup_cons] at hnd
      rcases List.mem_cons.mp hm with h | h
      · cases h
        simp [lookupD]
      · have hk : k0 ≠ k := by
          rintro rfl
          exact hnd.1 (List.mem_map.mpr ⟨(k0, v), h, rfl⟩)
        simp only [lookupD, if_neg hk]
        exact ih k v hnd.2 h

/-- Python dict assignment of a fresh key appends the binding. -/
theorem dictInsert_fresh : ∀ (m : List (String × Value)) (k : String) (v : Value),
    k ∉ m.map Prod.fst → dictInsert m k v = m ++ [(k, v)] := by
  intro m
  induction m with
  | nil => intro k v _; simp [dictInsert]
  | cons p rest ih =>
      intro k v hk
      obtain ⟨k0, v0⟩ := p
      simp only [List.map_cons, List.mem_cons] at hk
      push_neg at hk
      simp only [dictInsert, if_neg (Ne.symm hk.1), List.cons_append]
      rw [ih k v hk.2]

/-- The declared-key loop never succeeds when some declared key is
missing from the remaining input key set: by the time that key is
processed (if no failure preempts it) set.remove raises KeyError. -/
theorem mapLoop_missing : ∀ (kvs : List (String × SchemaLit)) entries keys acc
    (k0 : String), k0 ∈ kvs.map Prod.fst → k0 ∉ keys →
    ∀ r, mapLoop kvs entries keys acc ≠ .ok r := by
  intro kvs
  induction kvs with
  | nil => intro _ _ _ k0 hk _ _; simp at hk
  | cons kl rest ih =>
      obtain ⟨k, lit⟩ := kl
      intro entries keys acc k0 hk0 hnk r
      cases hB : dispatchB lit with
      | error e => simp [mapLoop, hB]
      | ok d =>
          cases hc : coerce d.val (lookupD entries k) with
          | error e => simp [mapLoop, hB, hc]
          | ok cv =>
              by_cases hkk : k0 = k
              · subst hkk
                simp [mapLoop, hB, hc, setRemove, hnk]
              · have hk0r : k0 ∈ rest.map Prod.fst := by
                  simpa [hkk] using hk0
                by_cases hmem : k ∈ keys
                · have hnk2 : k0 ∉ keys.erase k := fun hc2 =>
                    hnk (List.mem_of_mem_erase hc2)
                  simp only [mapLoop, hB, hc, setRemove, if_pos hmem]
                  exact ih entries (keys.erase k) _ k0 hk0r hnk2 r
                · simp [mapLoop, hB, hc, setRemove, hmem]

/-- The declared-key loop carries every input key that is not a
declared key through to the leftover set. -/
theorem mapLoop_extra : ∀ (kvs : List (String × SchemaLit)) entries keys acc
    (k0 : String) out left, k0 ∈ keys → k0 ∉ kvs.map Prod.fst →
    mapLoop kvs entries keys acc = .ok (out, left) → k0 ∈ left := by
  intro kvs
  induction kvs with
  | nil =>
      intro _ _ _ k0 out left hk _ h
      simp only [mapLoop, Except.ok.injEq, Prod.mk.injEq] at h
      rw [← h.2]
      exact hk
  | cons kl rest ih =>
      obtain ⟨k, lit⟩ := kl
      intro entries keys acc k0 out left hk0 hnd h
      have hkk : k0 ≠ k := by
        intro he
        exact hnd (by simp [he])
      have hndr : k0 ∉ rest.map Prod.fst := fun hc2 => hnd (by simp [hc2])
      cases hB : dispatchB lit with
      | error e => simp [mapLoop, hB] at h
      | ok d =>
          cases hc : coerce d.val (lookupD entries k) with
          | error e => simp [mapLoop, hB, hc] at h
          | ok cv =>
              by_cases hmem : k ∈ keys
              · simp only [mapLoop, hB, hc, setRemove, if_pos hmem] at h
                exact ih entries (keys.erase k) _ k0 out left
                  ((List.mem_erase_of_ne hkk).mpr hk0) hndr h
              · simp [mapLoop, hB, hc, setRemove, if_neg hmem] at h

/-- Inversion of a successful declared-key loop: with distinct
declared keys none of which is bound in the accumulator, the output
is the accumulator extended by one binding per declared key, each
the coercion of the looked-up input value through the dispatched
child literal. -/
theorem mapLoop_sound : ∀ (kvs : List (String × SchemaLit)) entries keys acc out left,
    (kvs.map Prod.fst).Nodup →
    (∀ kl ∈ kvs, (kl : String × SchemaLit).1 ∉ acc.map Prod.fst) →
    mapLoop kvs entries keys acc = .ok (out, left) →
    ∃ pairs, out = acc ++ pairs ∧ List.Forall₂ (mapR entries) kvs pairs := by
  intro kvs
  induction kvs with
  | nil =>
      intro _ _ acc out left _ _ h
      simp only [mapLoop, Except.ok.injEq, Prod.mk.injEq] at h
      exact ⟨[], by simp [h.1.symm], List.Forall₂.nil⟩
  | cons kl rest ih =>
      obtain ⟨k, lit⟩ := kl
      intro entries keys acc out left hnd hacc h
      simp only [List.map_cons, List.nodup_cons] at hnd
      cases hB : dispatchB lit with
      | error e => simp [mapLoop, hB] at h
      | ok d =>
          cases hc : coerce d.val (lookupD entries k) with
          | error e => simp [mapLoop, hB, hc] at h
          | ok cv =>
              by_cases hmem : k ∈ keys
              · simp only [mapLoop, hB, hc, setRemove, if_pos hmem] at h
                have hfresh : k ∉ acc.map Prod.fst := hacc (k, lit) (by simp)
                rw [dictInsert_fresh acc k cv hfresh] at h
                have hacc2 : ∀ kl2 ∈ rest, (kl2 : String × SchemaLit).1 ∉
                    (acc ++ [(k, cv)]).map Prod.fst := by
                  intro kl2 hkl2
                  simp only [List.map_append, List.mem_append]
                  rintro (hin | hin)
                  · exact hacc kl2 (by simp [hkl2]) hin
                  · simp only [List.map_cons, List.map_nil, List.mem_singleton] at hin
                    exact hnd.1 (hin ▸ List.mem_map.mpr ⟨kl2, hkl2, rfl⟩)
                obtain ⟨pairs, hout, hf⟩ :=
                  ih entries (keys.erase k) (acc ++ [(k, cv)]) out left hnd.2 hacc2 h
                refine ⟨(k, cv) :: pairs, ?_, ?_⟩
                · rw [hout, List.append_assoc]
                  rfl
                · exact List.Forall₂.cons
                    ⟨rfl, d.val, dispatchB_ok_dispatch hB, hc⟩ hf
              · simp [mapLoop, hB, hc, setRemove, if_neg hmem] at h

/-- Construction of a successful declared-key loop: with distinct
declared keys, an input key set that is exactly the declared keys,
a fresh accumulator and every child coercion succeeding, the loop
returns the accumulated bindings and an empty leftover set. -/
theorem mapLoop_complete : ∀ (kvs : List (String × SchemaLit)) entries keys acc,
    (kvs.map Prod.fst).Nodup →
    keys.Perm (kvs.map Prod.fst) →
    (∀ kl ∈ kvs, (kl : String × SchemaLit).1 ∉ acc.map Prod.fst) →
    (∀ kl ∈ kvs, ∃ d y, dispatch (kl : String × SchemaLit).2 = .ok d ∧
        coerce d (lookupD entries kl.1) = .ok y) →
    ∃ pairs, mapLoop kvs entries keys acc = .ok (acc ++ pairs, []) ∧
      List.Forall₂ (mapR entries) kvs pairs := by
  intro kvs
  induction kvs with
  | nil =>
      intro _ keys acc _ hperm _ _
      have : keys = [] := List.perm_nil.mp (by simpa using hperm)
      exact ⟨[], by simp [mapLoop, this], List.Forall₂.nil⟩
  | cons kl rest ih =>
      obtain ⟨k, lit⟩ := kl
      intro entries keys acc hnd hperm hacc hall
      simp only [List.map_cons, List.nodup_cons] at hnd
      obtain ⟨d, y, hd, hy⟩ := hall (k, lit) (by simp)
      obtain ⟨hlt, hB⟩ := dispatch_ok_elim hd
      have hmem : k ∈ keys := hperm.mem_iff.mpr (by simp)
      have hfresh : k ∉ acc.map Prod.fst := hacc (k, lit) (by simp)
      have hperm2 : (keys.erase k).Perm (rest.map Prod.fst) := by
        have h1 := hperm.erase k
        simp only [List.map_cons] at h1
        rwa [List.erase_cons_head] at h1
      have hacc2 : ∀ kl2 ∈ rest, (kl2 : String × SchemaLit).1 ∉
          (acc ++ [(k, y)]).map Prod.fst := by
        intro kl2 hkl2
        simp only [List.map_append, List.mem_append]
        rintro (hin | hin)
        · exact hacc kl2 (by simp [hkl2]) hin
        · simp only [List.map_cons, List.map_nil, List.mem_singleton] at hin
          exact hnd.1 (hin ▸ List.mem_map.mpr ⟨kl2, hkl2, rfl⟩)
      have hall2 : ∀ kl2 ∈ rest, ∃ d2 y2, dispatch (kl2 : String × SchemaLit).2 = .ok d2 ∧
          coerce d2 (lookupD entries kl2.1) = .ok y2 :=
        fun kl2 hkl2 => hall kl2 (by simp [hkl2])
      obtain ⟨pairs, hloop, hf⟩ :=
        ih entries (keys.erase k) (acc ++ [(k, y)]) hnd.2 hperm2 hacc2 hall2
      refine ⟨(k, y) :: pairs, ?_, ?_⟩
      · simp only [mapLoop, hB, hy, setRemove, if_pos hmem,
          dictInsert_fresh acc k y hfresh, hloop, List.append_assoc]
        rfl
      · exact List.Forall₂.cons ⟨rfl, d, hd, hy⟩ hf

/-- The element loop of List.coerce succeeds exactly when every
element coerces, elementwise in order. -/
theorem listLoop_ok_iff (c : Descriptor) :
    ∀ items outs, listLoop c items = .ok outs ↔
      List.Forall₂ (fun i o => coerce c i = .ok o) items outs := by
  intro items
  induction items with
  | nil =>
      intro outs
      constructor
      · intro h
        simp only [listLoop, Except.ok.injEq] at h
        subst h
        exact List.Forall₂.nil
      · intro h
        cases h
        simp [listLoop]
  | cons item rest ih =>
      intro outs
      constructor
      · intro h
        simp only [listLoop] at h
        cases hc : coerce c item with
        | error e => rw [hc] at h; cases h
        | ok x =>
            rw [hc] at h
            cases hl : listLoop c rest with
            | error e => rw [hl] at h; cases h
            | ok xs =>
                rw [hl] at h
                cases h
                exact List.Forall₂.cons hc ((ih xs).mp hl)
      · intro h
        cases h with
        | cons hco hrest =>
            simp only [listLoop, hco, (ih _).mpr hrest]

/-- The element loop of List.coerce propagates the first element
failure: elements before it all succeed, elements after it are never
touched. -/
theorem listLoop_first_error (c : Descriptor) :
    ∀ pre x post e, (∀ a ∈ pre, ∃ b, coerce c a = .ok b) →
      coerce c x = .error e → listLoop c (pre ++ x :: post) = .error e := by
  intro pre
  induction pre with
  | nil =>
      intro x post e _ hx
      simp [listLoop, hx]
  | cons a rest ih =>
      intro x post e hpre hx
      obtain ⟨b, hb⟩ := hpre a (by simp)
      have hr := ih x post e (fun a2 ha2 => hpre a2 (by simp [ha2])) hx
      simp only [List.cons_append, listLoop, hb, hr]

/-- Claim C8: List.coerce raises ValueError on any non-list input;
on the empty list it returns the empty list; on any list it succeeds
with some output exactly when every element coerces through the
single child, the output being the elementwise coercions in original
order (hence of the same length); and the first element failure
aborts the whole coercion, propagating exactly that failure with no
partial result. -/
theorem c8_listof_coerce (c : Descriptor) :
    (∀ v, (∀ items, v ≠ Value.list items) → coerce (.listOf c) v = .error .valueError) ∧
    coerce (.listOf c) (Value.list []) = .ok (Value.list []) ∧
    (∀ items out, coerce (.listOf c) (Value.list items) = .ok out ↔
      ∃ outs, out = Value.list outs ∧
        List.Forall₂ (fun i o => coerce c i = .ok o) items outs) ∧
    (∀ items outs, coerce (.listOf c) (Value.list items) = .ok (Value.list outs) →
      outs.length = items.length) ∧
    (∀ pre x post e, (∀ a ∈ pre, ∃ b, coerce c a = .ok b) →
      coerce c x = .error e →
      coerce (.listOf c) (Value.list (pre ++ x :: post)) = .error e) := by
  have hiff : ∀ items out, coerce (.listOf c) (Value.list items) = .ok out ↔
      ∃ outs, out = Value.list outs ∧
        List.Forall₂ (fun i o => coerce c i = .ok o) items outs := by
    intro items out
    simp only [coerce]
    cases hl : listLoop c items with
    | error e =>
        constructor
        · intro h; cases h
        · rintro ⟨outs, rfl, hf⟩
          have h2 := (listLoop_ok_iff c items outs).mpr hf
          rw [h2] at hl
          cases hl
    | ok xs =>
        constructor
        · intro h
          cases h
          exact ⟨xs, rfl, (listLoop_ok_iff c items xs).mp hl⟩
        · rintro ⟨outs, rfl, hf⟩
          have h2 := (listLoop_ok_iff c items outs).mpr hf
          rw [h2] at hl
          cases hl
          rfl
  refine ⟨?_, by simp [coerce, listLoop], hiff, ?_, ?_⟩
  · intro v hv
    cases v with
    | list items => exact absurd rfl (hv items)
    | _ => simp [coerce]
  · intro items outs h
    obtain ⟨outs2, heq, hf⟩ := (hiff items (Value.list outs)).mp h
    cases heq
    exact hf.length_eq.symm
  · intro pre x post e hpre hx
    simp only [coerce, listLoop_first_error c pre x post e hpre hx]

/-- The coercion loop keeps the declared keys, in declared order, as
the keys of the bindings it produces. -/
theorem forall2_fst_eq {entries : List (String × Value)} :
    ∀ {kvs : List (String × SchemaLit)} {pairs : List (String × Value)},
    List.Forall₂ (mapR entries) kvs pairs →
    pairs.map Prod.fst = kvs.map Prod.fst := by
  intro kvs pairs h
  induction h with
  | nil => rfl
  | cons h1 _ ih => simp [ih, h1.1]

/-- A pointwise relation can remember that its right components are
members of the right list. -/
theorem forall2_mem_right {α β : Type} {R : α → β → Prop} :
    ∀ {l1 : List α} {l2 : List β}, List.Forall₂ R l1 l2 →
    List.Forall₂ (fun a b => R a b ∧ b ∈ l2) l1 l2 := by
  intro l1 l2 h
  induction h with
  | nil => exact .nil
  | cons h1 _ ih =>
      refine .cons ⟨h1, by simp⟩ (List.Forall₂.imp ?_ ih)
      intro a b hab
      exact ⟨hab.1, List.mem_cons_of_mem _ hab.2⟩

/-- Each left member of a pointwise relation has a related right
component. -/
theorem forall2_exists_left {α β : Type} {R : α → β → Prop} :
    ∀ {l1 : List α} {l2 : List β}, List.Forall₂ R l1 l2 →
    ∀ a ∈ l1, ∃ b, R a b := by
  intro l1 l2 h
  induction h with
  | nil => intro a ha; cases ha
  | cons h1 _ ih =>
      intro a ha
      rcases List.mem_cons.mp ha with h2 | h2
      · exact ⟨_, h2 ▸ h1⟩
      · exact ih a h2

/-- Each right member of a pointwise relation has a related left
component. -/
theorem forall2_exists_right {α β : Type} {R : α → β → Prop} :
    ∀ {l1 : List α} {l2 : List β}, List.Forall₂ R l1 l2 →
    ∀ b ∈ l2, ∃ a, R a b := by
  intro l1 l2 h
  induction h with
  | nil => intro b hb; cases hb
  | cons h1 _ ih =>
      intro b hb
      rcases List.mem_cons.mp hb with h2 | h2
      · exact ⟨_, h2 ▸ h1⟩
      · exact ih b h2

/-- Two pointwise relations over the same left list determine equal
right lists when each left member determines its right component. -/
theorem forall2_unique {α β : Type} {R S : α → β → Prop} :
    ∀ {l : List α} {as bs : List β}, List.Forall₂ R l as →
    List.Forall₂ S l bs →
    (∀ x a b, x ∈ l → R x a → S x b → a = b) → as = bs := by
  intro l as bs h1
  induction h1 generalizing bs with
  | nil => intro h2 _; cases h2; rfl
  | cons hR _ ih =>
      intro h2 huniq
      cases h2 with
      | cons hS hSs =>
          rw [huniq _ _ _ (by simp) hR hS,
            ih hSs (fun x a b hx => huniq x a b (by simp [hx]))]

/-- A declared child literal is no larger than the whole declared
schema. -/
theorem lsize_le_kvsSize : ∀ (kvs : List (String × SchemaLit)) kl, kl ∈ kvs →
    lsize (kl : String × SchemaLit).2 ≤ kvsSize kvs := by
  intro kvs
  induction kvs with
  | nil => intro kl h; cases h
  | cons p rest ih =>
      intro kl h
      obtain ⟨k, lit⟩ := p
      rcases List.mem_cons.mp h with h2 | h2
      · subst h2; simp only [kvsSize]; omega
      · have := ih kl h2
        simp only [kvsSize]
        omega

/-- Dispatch sends pure schema literals to pure descriptors. -/
theorem dispatch_pure_aux : ∀ (n : Nat) (lit : SchemaLit) (d : Descriptor),
    lsize lit < n → PureLit lit → dispatch lit = .ok d → PureDesc d := by
  intro n
  induction n with
  | zero => intro lit d h; omega
  | succ n ih =>
      intro lit d hsz hp hd
      cases lit with
      | desc d0 =>
          simp [dispatch, dispatchB] at hd
          subst hd
          cases hp with | desc _ h0 => exact h0
      | typeLit t =>
          simp [dispatch, dispatchB] at hd
          subst hd
          exact PureDesc.inst t
      | dictLit kvs =>
          simp [dispatch, dispatchB] at hd
          subst hd
          cases hp with | dictLit _ hnd hch => exact PureDesc.mapOf kvs hnd hch
      | invalid => simp [dispatch, dispatchB] at hd
      | listLit xs =>
          cases xs with
          | nil => simp [dispatch, dispatchB] at hd
          | cons x rest =>
              cases rest with
              | cons y rest2 => simp [dispatch, dispatchB] at hd
              | nil =>
                  cases hBx : dispatchB x with
                  | error e => simp [dispatch, dispatchB, hBx] at hd
                  | ok dx =>
                      simp [dispatch, dispatchB, hBx] at hd
                      subst hd
                      have hpx : PureLit x := by
                        cases hp with | listLit _ hall => exact hall x (by simp)
                      have hlt : lsize x < n := by
                        simp only [lsize, litsSize] at hsz
                        omega
                      exact PureDesc.listOf dx.val
                        (ih x dx.val hlt hpx (dispatchB_ok_dispatch hBx))

/-- Round-trip induction: a pure descriptor of size below the fuel
coerces its own successful output to itself. -/
theorem roundtrip_aux : ∀ (n : Nat) (d : Descriptor) (x y : Value),
    dsize d < n → PureDesc d → coerce d x = .ok y → coerce d y = .ok y := by
  intro n
  induction n with
  | zero => intro d x y h; omega
  | succ n ih =>
      intro d x y hsz hp hok
      cases d with
      | coerceFn f => cases hp
      | optional c dv => cases hp
      | optionalString c dv => cases hp
      | and b ds => cases hp
      | or b ds => cases hp
      | inst t =>
          by_cases hi : isinst x t
          · simp [coerce, hi] at hok
            subst hok
            simp [coerce, hi]
          · simp [coerce, hi] at hok
      | regEx f =>
          cases x with
          | str s =>
              by_cases hf : f s
              · simp [coerce, hf] at hok
                subst hok
                simp [coerce, hf]
              · simp [coerce, hf] at hok
          | int n2 => simp [coerce] at hok
          | float t2 => simp [coerce] at hok
          | none => simp [coerce] at hok
          | list xs => simp [coerce] at hok
          | dict kvs2 => simp [coerce] at hok
          | empty => simp [coerce] at hok
      | check f =>
          by_cases ht : truthy (f x)
          · simp [coerce, ht] at hok
            subst hok
            simp [coerce, ht]
          · simp [coerce, ht] at hok
      | listOf c =>
          have hpc : PureDesc c := by cases hp with | listOf _ h => exact h
          have hsz2 : dsize c < n := by simp only [dsize] at hsz; omega
          cases x with
          | list items =>
              cases hl : listLoop c items with
              | error e => simp [coerce, hl] at hok
              | ok outs =>
                  simp [coerce, hl] at hok
                  subst hok
                  have hf := (listLoop_ok_iff c items outs).mp hl
                  have hall : ∀ o ∈ outs, coerce c o = .ok o := by
                    intro o ho
                    obtain ⟨i, hco⟩ := forall2_exists_right hf o ho
                    exact ih c i o hsz2 hpc hco
                  have hok2 : listLoop c outs = .ok outs :=
                    (listLoop_ok_iff c outs outs).mpr
                      (List.forall₂_same.mpr hall)
                  simp [coerce, hok2]
          | int n2 => simp [coerce] at hok
          | str s => simp [coerce] at hok
          | float t2 => simp [coerce] at hok
          | none => simp [coerce] at hok
          | dict kvs2 => simp [coerce] at hok
          | empty => simp [coerce] at hok
      | mapOf kvs =>
          have hnd : (kvs.map Prod.fst).Nodup := by
            cases hp with | mapOf _ h _ => exact h
          have hch : ∀ kl ∈ kvs, PureLit (Prod.snd kl) := by
            cases hp with | mapOf _ _ h => exact h
          cases x with
          | dict entries =>
              cases hm : mapLoop kvs entries (entries.map Prod.fst) [] with
              | error e => simp [coerce, hm] at hok
              | ok r =>
                  obtain ⟨out, left⟩ := r
                  cases left with
                  | cons l0 ls => simp [coerce, hm] at hok
                  | nil =>
                      simp [coerce, hm] at hok
                      subst hok
                      obtain ⟨pairs, hout, hf⟩ :=
                        mapLoop_sound kvs entries _ [] out [] hnd (by simp) hm
                      simp only [List.nil_append] at hout
                      subst hout
                      have hkeys : out.map Prod.fst = kvs.map Prod.fst :=
                        forall2_fst_eq hf
                      have houtnd : (out.map Prod.fst).Nodup := by
                        rw [hkeys]; exact hnd
                      have hf2 := forall2_mem_right hf
                      have hidem : ∀ kl ∈ kvs, ∀ p : String × Value,
                          mapR entries kl p → p ∈ out →
                          lookupD out kl.1 = p.2 ∧
                          ∀ d2, dispatch (kl : String × SchemaLit).2 = .ok d2 →
                            coerce d2 p.2 = .ok p.2 := by
                        intro kl hkl p hR hpo
                        obtain ⟨d2, hd2, hc2⟩ := hR.2
                        have hpval : (kl.1, p.2) ∈ out := by
                          have hpe : p = (kl.1, p.2) := by
                            rw [Prod.ext_iff]
                            exact ⟨hR.1, rfl⟩
                          rw [← hpe]
                          exact hpo
                        have hlook : lookupD out kl.1 = p.2 :=
                          lookupD_mem out kl.1 p.2 houtnd hpval
                        refine ⟨hlook, ?_⟩
                        intro d3 hd3
                        have hde : d3 = d2 := by
                          rw [hd2] at hd3
                          cases hd3
                          rfl
                        subst hde
                        have hpd : PureDesc d3 :=
                          dispatch_pure_aux (lsize kl.2 + 1) kl.2 d3 (by omega)
                            (hch kl hkl) hd2
                        obtain ⟨hlt, _⟩ := dispatch_ok_elim hd2
                        have hszk : lsize (kl : String × SchemaLit).2 ≤ kvsSize kvs :=
                          lsize_le_kvsSize kvs kl hkl
                        have hsd : dsize d3 < n := by
                          simp only [dsize] at hsz
                          omega
                        exact ih d3 (lookupD entries kl.1) p.2 hsd hpd hc2
                      have hall2 : ∀ kl ∈ kvs, ∃ d2 y2,
                          dispatch (kl : String × SchemaLit).2 = .ok d2 ∧
                          coerce d2 (lookupD out kl.1) = .ok y2 := by
                        intro kl hkl
                        obtain ⟨p, hR⟩ := forall2_exists_left hf2 kl hkl
                        obtain ⟨d2, hd2, _⟩ := hR.1.2
                        obtain ⟨hlook, hid⟩ := hidem kl hkl p hR.1 hR.2
                        exact ⟨d2, p.2, hd2, by rw [hlook]; exact hid d2 hd2⟩
                      obtain ⟨pairs2, hloop2, hf3⟩ :=
                        mapLoop_complete kvs out (out.map Prod.fst) [] hnd
                          (by rw [hkeys]) (by simp) hall2
                      have heq : out = pairs2 := by
                        refine forall2_unique hf2 hf3 ?_
                        intro kl a b hkl hRa hSb
                        obtain ⟨hlook, hid⟩ := hidem kl hkl a hRa.1 hRa.2
                        obtain ⟨dB, hdB, hcB⟩ := hSb.2
                        have hca : coerce dB a.2 = .ok a.2 := hid dB hdB
                        rw [hlook] at hcB
                        rw [hca] at hcB
                        rw [Prod.ext_iff]
                        simp only [Except.ok.injEq] at hcB
                        exact ⟨by rw [hRa.1.1, hSb.1], hcB⟩
                      rw [← heq] at hloop2
                      simp [coerce, hloop2]
          | int n2 => simp [coerce] at hok
          | str s => simp [coerce] at hok
          | float t2 => simp [coerce] at hok
          | none => simp [coerce] at hok
          | list xs => simp [coerce] at hok
          | empty => simp [coerce] at hok

/-- Claim C6: a Map schema with distinct declared keys sees exactly
its declared key set or fails.  When the input binds exactly the
declared keys and every child coercion succeeds, Map.coerce succeeds
and returns the mapping of coerced values, one binding per declared
key in declared order; when the input lacks a declared key the
coercion fails; when the input contains an undeclared key the
coercion fails. -/
theorem c6_map_exact_keys (kvs : List (String × SchemaLit))
    (entries : List (String × Value))
    (hnd : (kvs.map Prod.fst).Nodup)
    (_hnonopt : ∀ kl ∈ kvs, nonOptLit (kl : String × SchemaLit).2 = true) :
    ((entries.map Prod.fst).Perm (kvs.map Prod.fst) →
      (∀ kl ∈ kvs, ∃ d y, dispatch (kl : String × SchemaLit).2 = .ok d ∧
        coerce d (lookupD entries kl.1) = .ok y) →
      ∃ out, coerce (.mapOf kvs) (.dict entries) = .ok (.dict out) ∧
        List.Forall₂ (mapR entries) kvs out) ∧
    (∀ k, k ∈ kvs.map Prod.fst → k ∉ entries.map Prod.fst →
      ∃ e, coerce (.mapOf kvs) (.dict entries) = .error e) ∧
    (∀ k, k ∈ entries.map Prod.fst → k ∉ kvs.map Prod.fst →
      ∃ e, coerce (.mapOf kvs) (.dict entries) = .error e) := by
  refine ⟨?_, ?_, ?_⟩
  · intro hperm hall
    obtain ⟨pairs, hloop, hf⟩ :=
      mapLoop_complete kvs entries (entries.map Prod.fst) [] hnd hperm
        (by simp) hall
    refine ⟨pairs, ?_, hf⟩
    simp [coerce, hloop]
  · intro k hk hnk
    cases hm : mapLoop kvs entries (entries.map Prod.fst) [] with
    | ok r => exact absurd hm (mapLoop_missing kvs entries _ [] k hk hnk r)
    | error e => exact ⟨e, by simp [coerce, hm]⟩
  · intro k hk hnk
    cases hm : mapLoop kvs entries (entries.map Prod.fst) [] with
    | ok r =>
        obtain ⟨out, left⟩ := r
        have hleft : k ∈ left := mapLoop_extra kvs entries _ [] k out left hk hnk hm
        have hne : left ≠ [] := by rintro rfl; cases hleft
        exact ⟨.valueError, by simp [coerce, hm, List.isEmpty_iff, hne]⟩
    | error e => exact ⟨e, by simp [coerce, hm]⟩

/-- Witness for claim C6: the spec example MappingOf a to int, b to
str on the conforming input binding a to 1 and b to "x". -/
theorem c6_witness :
    ∃ out, coerce (.mapOf [("a", .typeLit .int), ("b", .typeLit .str)])
      (.dict [("a", .int 1), ("b", .str "x")]) = .ok (.dict out) ∧
      List.Forall₂ (mapR [("a", .int 1), ("b", .str "x")])
        [("a", .typeLit .int), ("b", .typeLit .str)] out := by
  refine (c6_map_exact_keys [("a", .typeLit .int), ("b", .typeLit .str)]
    [("a", .int 1), ("b", .str "x")] (by simp) (by simp [nonOptLit])).1
    (List.Perm.refl _) ?_
  intro kl hkl
  rcases List.mem_cons.mp hkl with h | h
  · subst h
    exact ⟨.inst .int, .int 1, by simp [dispatch, dispatchB],
      by simp [lookupD, coerce, isinst]⟩
  · rcases List.mem_cons.mp h with h2 | h2
    · subst h2
      exact ⟨.inst .str, .str "x", by simp [dispatch, dispatchB],
        by simp [lookupD, coerce, isinst]⟩
    · cases h2

/-- Witness for claim C8: the child Instance(int) on the inputs of
the spec examples: a non-list fails, the empty list round-trips, a
good list coerces elementwise, and a bad element aborts with its
ValueError. -/
theorem c8_witness :
    coerce (.listOf (.inst .int)) (.str "q") = .error .valueError ∧
    coerce (.listOf (.inst .int)) (Value.list []) = .ok (Value.list []) ∧
    coerce (.listOf (.inst .int)) (Value.list [.int 1, .int 2])
      = .ok (Value.list [.int 1, .int 2]) ∧
    coerce (.listOf (.inst .int)) (Value.list [.int 1, .str "x"])
      = .error .valueError := by
  refine ⟨(c8_listof_coerce (.inst .int)).1 (.str "q") (fun items h => by cases h),
          (c8_listof_coerce (.inst .int)).2.1, ?_, ?_⟩
  · exact ((c8_listof_coerce (.inst .int)).2.2.1 [.int 1, .int 2]
      (Value.list [.int 1, .int 2])).mpr
      ⟨[.int 1, .int 2], rfl, by
        refine List.Forall₂.cons (by simp [coerce, isinst]) ?_
        exact List.Forall₂.cons (by simp [coerce, isinst]) List.Forall₂.nil⟩
  · exact (c8_listof_coerce (.inst .int)).2.2.2.2 [.int 1] (.str "x") [] .valueError
      (by intro a ha; simp at ha; exact ⟨.int 1, by simp [ha, coerce, isinst]⟩)
      (by simp [coerce, isinst])

/-- Claim C9: round-trip idempotence for the pure, non-converting
descriptors (Instance, RegEx, Check, and List/Map compositions of
such, with the distinct dict keys a Python dict literal guarantees):
whenever coerce succeeds, coercing the output again succeeds and
returns the output unchanged. -/
theorem c9_roundtrip_idempotent (d : Descriptor) (x y : Value)
    (hp : PureDesc d) (hok : coerce d x = .ok y) : coerce d y = .ok y :=
  roundtrip_aux (dsize d + 1) d x y (by omega) hp hok

/-- Witness for claim C9: a Map of one int key coerces its own
output to itself. -/
theorem c9_witness :
    coerce (.mapOf [("a", .typeLit .int)]) (.dict [("a", .int 2)])
      = .ok (.dict [("a", .int 2)]) :=
  c9_roundtrip_idempotent (.mapOf [("a", .typeLit .int)])
    (.dict [("a", .int 2)]) (.dict [("a", .int 2)])
    (PureDesc.mapOf _ (by simp)
      (by intro kl hkl; simp at hkl; rw [hkl]; exact PureLit.typeLit _))
    (by simp [coerce, mapLoop, dispatchB, lookupD, setRemove, isinst, dictInsert])

end PySchema
